import Mathlib

/-!
Verification of the lazymigrate repository (Go, SQLite schema migrations).

Go strings are modelled as `List Char`. The split performed by
`strings.Split(s, sep)` for a non-empty separator is modelled by the
fuel-based function `splitGo` (fuel keeps the recursion structural so that
concrete runs reduce in the kernel); `splitOnL sep s` instantiates the fuel
with `s.length`, which is always sufficient.

The database and the SQL engine are external to the repository; they are
modelled by an environment `Env` that decides whether each database
operation succeeds, together with an abstract schema state `σ` acted on by
an execution oracle.  `Schema.Migrate` is a direct transcription of the
control flow of the Go function of the same name, and additionally returns
the final committed database state and the chronological trace of the
database operations the call performed.
-/

set_option autoImplicit false

namespace Lazymigrate

/-- Boolean test that `pat` starts the list `s` (Go `strings.HasPrefix`). -/
def hasPre : List Char → List Char → Bool
  | [], _ => true
  | _ :: _, [] => false
  | a :: pat, b :: s => a == b && hasPre pat s

/-- Boolean test that `pat` occurs as a contiguous substring of `s`
(Go `strings.Contains`). -/
def occursIn (pat : List Char) : List Char → Bool
  | [] => hasPre pat []
  | c :: s => hasPre pat (c :: s) || occursIn pat s

/-- Index of the leftmost occurrence of `pat` in `s`, if any
(Go `strings.Index`). -/
def findAt (pat : List Char) : List Char → Option Nat
  | [] => if hasPre pat [] then some 0 else none
  | c :: s => if hasPre pat (c :: s) then some 0 else (findAt pat s).map (· + 1)

/-- Fuel-based model of Go `strings.Split(s, sep)` for a non-empty `sep`:
if `sep` starts the remaining input, emit an empty segment and continue
after the separator, otherwise move the head character into the current
segment.  `fuel ≥ s.length` makes the fuel irrelevant. -/
def splitGo (sep : List Char) : Nat → List Char → List (List Char)
  | _, [] => [[]]
  | 0, s => [s]
  | fuel + 1, c :: cs =>
    if 0 < sep.length && hasPre sep (c :: cs) then
      [] :: splitGo sep fuel (cs.drop (sep.length - 1))
    else
      match splitGo sep fuel cs with
      | [] => [[c]]
      | h :: t => (c :: h) :: t

/-- Go `strings.Split(s, sep)` for a non-empty separator. -/
def splitOnL (sep s : List Char) : List (List Char) :=
  splitGo sep s.length s

/-- Reference definition transcribed from the specification's wording of
the splitting algorithm, for the refinement proof of the splitter: split
the body at the leftmost occurrence of the separator, emit the segment
before it, and repeat after the separator; if the separator does not occur
the whole remainder is the final segment.  The code-side `splitOnL` is
proved equal to it. -/
def splitSpecGo (sep : List Char) : Nat → List Char → List (List Char) :=
  fun fuel s =>
    match fuel, findAt sep s with
    | _, none => [s]
    | 0, some _ => [s]
    | fuel + 1, some m => s.take m :: splitSpecGo sep fuel (s.drop (m + sep.length))

/-- Spec-side split with sufficient fuel. -/
def splitSpec (sep s : List Char) : List (List Char) :=
  splitSpecGo sep s.length s

/-- Join a list of segments with the separator between consecutive segments
(inverse direction of the split; Go `strings.Join`). -/
def joinWith (sep : List Char) : List (List Char) → List Char
  | [] => []
  | [p] => p
  | p :: q :: ps => p ++ sep ++ joinWith sep (q :: ps)

/-- Default delimiter constant of the package (source line 14). -/
def Delimiter : String :=
  "--------------------------------- NEW VERSION ---------------------------------"

/-- The `Schema` struct of the source: the schema text and the magic
delimiter line. -/
structure Schema where
  schema : List Char
  magic : List Char
deriving DecidableEq

/-- NewSchemaWithMagic returns a new Schema with the given schema string and
magic comment. -/
def NewSchemaWithMagic (schema magic : List Char) : Schema :=
  ⟨schema, magic⟩

/-- NewSchema returns a new Schema delimited by the default magic comment. -/
def NewSchema (schema : List Char) : Schema :=
  NewSchemaWithMagic schema Delimiter.toList

/-- The separator actually used by the split: the magic comment on its own
line, i.e. a newline, the magic string, and a newline. -/
def Schema.sepL (s : Schema) : List Char :=
  '\n' :: s.magic ++ ['\n']

/-- Versions returns the versions of the schema:
strings.Split(s.schema, "\n" + s.magic + "\n"). -/
def Schema.Versions (s : Schema) : List (List Char) :=
  splitOnL s.sepL s.schema

/-- State of the target SQLite database: an abstract schema/content state
`σ` together with the `user_version` pragma, a signed integer. -/
structure DBState (σ : Type) where
  data : σ
  version : Int
deriving DecidableEq

/-- Error taxonomy of `Schema.Migrate`: one constructor per failing stage,
each wrapping the underlying database error (the `%w` of the Go code);
`applyVersion` additionally records the 0-based index of the failing
version. -/
inductive MigErr (E : Type) where
  | beginTx (e : E)
  | readVersion (e : E)
  | applyVersion (i : Nat) (e : E)
  | writeVersion (e : E)
  | commitTx (e : E)
deriving DecidableEq

/-- Outcome of a `Migrate` call: normal return with `nil` error, normal
return with an error value, or a Go runtime panic (index out of range,
reachable when the stored `user_version` is negative). -/
inductive MigResult (E : Type) where
  | ok
  | err (e : MigErr E)
  | panicked
deriving DecidableEq

/-- One database operation performed by a `Migrate` call, in chronological
order.  `execBody i sql` is `tx.ExecContext(ctx, versions[i])`;
`writeVersion n` is the `PRAGMA user_version = n` write; `commitAttempt` is
a call to `tx.Commit()`; `rollback` is the deferred `tx.Rollback()` acting
on a still-active transaction, and `rollbackNoop` is the same deferred call
finding the transaction already finished by a commit attempt (it returns
`ErrTxDone` and does nothing). -/
inductive Event where
  | readVersion
  | execBody (i : Nat) (sql : List Char)
  | writeVersion (n : Nat)
  | commitAttempt
  | rollback
  | rollbackNoop
deriving DecidableEq

/-- Environment supplied by the external database engine: whether each
transaction-level operation succeeds (and with which underlying error it
fails), and the effect of executing one SQL body on the abstract schema
state inside the transaction. -/
structure Env (σ E : Type) where
  beginErr : Option E
  readErr : Option E
  execBody : σ → List Char → Except E σ
  writeErr : Option E
  commitErr : Option E

/-- The `for i := v; i < len(versions); i++` loop of `Migrate`, run on the
suffix `rest = versions[i:]` of the version list: execute each body in
ascending index order against the transaction state, stopping at the first
failure and reporting its index together with the underlying error.  Also
returns the trace of attempted executions. -/
def applyList {σ E : Type} (exec : σ → List Char → Except E σ) :
    Nat → List (List Char) → σ → Except (Nat × E) σ × List Event
  | _, [], st => (Except.ok st, [])
  | i, sql :: rest, st =>
    match exec st sql with
    | Except.error e => (Except.error (i, e), [Event.execBody i sql])
    | Except.ok st' =>
      match applyList exec (i + 1) rest st' with
      | (r, tr) => (r, Event.execBody i sql :: tr)

/-- Transcription of `Schema.Migrate` (source lines 53-86).  Returns the
call outcome, the committed database state after the call, and the trace of
database operations.  The transaction works on a snapshot of `db`; only a
successful commit publishes it, every other exit leaves `db` as it was
(SQLite transactional semantics).  The deferred `tx.Rollback()` runs on
every exit after a successful begin; after a commit attempt it finds the
transaction done and has no effect. -/
def Schema.Migrate {σ E : Type} (s : Schema) (env : Env σ E) (db : DBState σ) :
    MigResult E × DBState σ × List Event :=
  match env.beginErr with
  | some e => (MigResult.err (MigErr.beginTx e), db, [])
  | none =>
    match env.readErr with
    | some e => (MigResult.err (MigErr.readVersion e), db,
        [Event.readVersion, Event.rollback])
    | none =>
      if (s.Versions.length : Int) ≤ db.version then
        (MigResult.ok, db, [Event.readVersion, Event.rollback])
      else if db.version < 0 then
        (MigResult.panicked, db, [Event.readVersion, Event.rollback])
      else
        match applyList env.execBody db.version.toNat
            (s.Versions.drop db.version.toNat) db.data with
        | (Except.error (i, e), tr) =>
          (MigResult.err (MigErr.applyVersion i e), db,
            Event.readVersion :: tr ++ [Event.rollback])
        | (Except.ok st', tr) =>
          match env.writeErr with
          | some e => (MigResult.err (MigErr.writeVersion e), db,
              Event.readVersion :: tr ++
                [Event.writeVersion s.Versions.length, Event.rollback])
          | none =>
            match env.commitErr with
            | some e => (MigResult.err (MigErr.commitTx e), db,
                Event.readVersion :: tr ++
                  [Event.writeVersion s.Versions.length, Event.commitAttempt,
                    Event.rollbackNoop])
            | none => (MigResult.ok, DBState.mk st' (s.Versions.length : Int),
                Event.readVersion :: tr ++
                  [Event.writeVersion s.Versions.length, Event.commitAttempt,
                    Event.rollbackNoop])

/-- The package-level convenience function `Migrate` (source lines 90-92). -/
def Migrate {σ E : Type} (env : Env σ E) (db : DBState σ) (schema : List Char) :
    MigResult E × DBState σ × List Event :=
  (NewSchema schema).Migrate env db

/-- Indices of the version bodies executed in a trace, in order. -/
def execIdxs (tr : List Event) : List Nat :=
  tr.filterMap fun ev =>
    match ev with
    | Event.execBody i _ => some i
    | _ => none

/-- Number of reads of the version counter in a trace. -/
def countReads (tr : List Event) : Nat :=
  (tr.filter fun ev =>
    match ev with
    | Event.readVersion => true
    | _ => false).length

/-- Number of writes of the version counter in a trace. -/
def countWrites (tr : List Event) : Nat :=
  (tr.filter fun ev =>
    match ev with
    | Event.writeVersion _ => true
    | _ => false).length

/-- The list i, i+1, ..., i+n-1. -/
def natsFrom : Nat → Nat → List Nat
  | _, 0 => []
  | i, n + 1 => i :: natsFrom (i + 1) n

/-- Trace of executing the bodies of `l` at consecutive indices starting
from `i`. -/
def enumFromEv (i : Nat) : List (List Char) → List Event
  | [] => []
  | sql :: rest => Event.execBody i sql :: enumFromEv (i + 1) rest

/-! ### Lemmas about the substring primitives -/

theorem hasPre_iff_append {pat : List Char} :
    ∀ {s : List Char}, hasPre pat s = true ↔ ∃ t, s = pat ++ t := by
  induction pat with
  | nil =>
    intro s
    simp [hasPre]
  | cons a pat ih =>
    intro s
    cases s with
    | nil =>
      simp [hasPre]
    | cons b s =>
      simp only [hasPre, Bool.and_eq_true, beq_iff_eq]
      constructor
      · rintro ⟨rfl, h⟩
        obtain ⟨t, rfl⟩ := ih.mp h
        exact ⟨t, rfl⟩
      · rintro ⟨t, ht⟩
        injection ht with h1 h2
        exact ⟨h1.symm, ih.mpr ⟨t, h2⟩⟩

theorem hasPre_append (pat t : List Char) : hasPre pat (pat ++ t) = true :=
  hasPre_iff_append.mpr ⟨t, rfl⟩

theorem hasPre_false_of_occursIn_false {pat s : List Char}
    (h : occursIn pat s = false) : hasPre pat s = false := by
  cases s with
  | nil => simpa [occursIn] using h
  | cons c s =>
    simp only [occursIn, Bool.or_eq_false_iff] at h
    exact h.1

theorem occursIn_tail_false {pat : List Char} {c : Char} {s : List Char}
    (h : occursIn pat (c :: s) = false) : occursIn pat s = false := by
  simp only [occursIn, Bool.or_eq_false_iff] at h
  exact h.2

theorem occursIn_of_pre {pat s : List Char} (h : hasPre pat s = true) :
    occursIn pat s = true := by
  cases s with
  | nil => simpa [occursIn] using h
  | cons c s => simp [occursIn, h]

theorem occursIn_of_append {pat : List Char} :
    ∀ (x : List Char) {s : List Char} (y : List Char), s = x ++ pat ++ y →
      occursIn pat s = true := by
  intro x
  induction x with
  | nil =>
    intro s y hs
    simp only [List.nil_append] at hs
    subst hs
    exact occursIn_of_pre (hasPre_append pat y)
  | cons a x ih =>
    intro s y hs
    subst hs
    show occursIn pat (a :: (x ++ pat ++ y)) = true
    simp only [occursIn, Bool.or_eq_true]
    exact Or.inr (ih y rfl)

theorem findAt_nil_of_pos {pat : List Char} (h : 0 < pat.length) :
    findAt pat [] = none := by
  cases pat with
  | nil => simp at h
  | cons a p => simp [findAt, hasPre]

theorem occursIn_false_of_findAt_none {pat : List Char} :
    ∀ {s : List Char}, findAt pat s = none → occursIn pat s = false := by
  intro s
  induction s with
  | nil =>
    intro h
    simp only [occursIn]
    by_cases hp : hasPre pat [] = true
    · simp [findAt, hp] at h
    · simpa using hp
  | cons c s ih =>
    intro h
    by_cases hp : hasPre pat (c :: s) = true
    · simp [findAt, hp] at h
    · have hp' : hasPre pat (c :: s) = false := by simpa using hp
      simp only [findAt, hp'] at h
      simp only [Bool.false_eq_true, if_false, Option.map_eq_none'] at h
      simp only [occursIn, Bool.or_eq_false_iff]
      exact ⟨hp', ih h⟩

/-! ### Unfolding and fuel lemmas for the split -/

theorem splitGo_nil (sep : List Char) : ∀ f, splitGo sep f [] = [[]] := by
  intro f
  cases f <;> rfl

theorem splitGo_cons (sep : List Char) (f : Nat) (c : Char) (cs : List Char) :
    splitGo sep (f + 1) (c :: cs) =
      if 0 < sep.length && hasPre sep (c :: cs) then
        [] :: splitGo sep f (cs.drop (sep.length - 1))
      else
        match splitGo sep f cs with
        | [] => [[c]]
        | h :: t => (c :: h) :: t := rfl

theorem splitGo_ne_nil (sep : List Char) : ∀ f s, splitGo sep f s ≠ [] := by
  intro f s
  cases f with
  | zero => cases s <;> simp [splitGo]
  | succ f =>
    cases s with
    | nil => simp [splitGo_nil]
    | cons c cs =>
      rw [splitGo_cons]
      split
      · simp
      · split <;> simp

theorem splitGo_fuel (sep : List Char) :
    ∀ f1 f2 s, s.length ≤ f1 → s.length ≤ f2 →
      splitGo sep f1 s = splitGo sep f2 s := by
  intro f1
  induction f1 with
  | zero =>
    intro f2 s h1 _
    have : s = [] := List.eq_nil_of_length_eq_zero (Nat.le_zero.mp h1)
    subst this
    rw [splitGo_nil, splitGo_nil]
  | succ f1 ih =>
    intro f2 s h1 h2
    cases s with
    | nil => rw [splitGo_nil, splitGo_nil]
    | cons c cs =>
      cases f2 with
      | zero => simp at h2
      | succ f2 =>
        rw [splitGo_cons, splitGo_cons]
        simp only [List.length_cons, Nat.succ_le_succ_iff] at h1 h2
        have hd : (cs.drop (sep.length - 1)).length ≤ cs.length := by
          rw [List.length_drop]
          omega
        cases hc : (decide (0 < sep.length) && hasPre sep (c :: cs)) with
        | true =>
          simp only [hc, if_true]
          rw [ih f2 _ (Nat.le_trans hd h1) (Nat.le_trans hd h2)]
        | false =>
          simp only [hc, Bool.false_eq_true, if_false]
          rw [ih f2 cs h1 h2]

theorem splitOnL_nil (sep : List Char) : splitOnL sep [] = [[]] := rfl

theorem splitOnL_cons_of_pre {sep : List Char} (hsep : 0 < sep.length)
    {s : List Char} (hp : hasPre sep s = true) :
    splitOnL sep s = [] :: splitOnL sep (s.drop sep.length) := by
  cases s with
  | nil =>
    obtain ⟨t, ht⟩ := hasPre_iff_append.mp hp
    cases sep with
    | nil => simp at hsep
    | cons a p => simp at ht
  | cons c cs =>
    show splitGo sep (cs.length + 1) (c :: cs) = _
    rw [splitGo_cons]
    have hb : (decide (0 < sep.length) && hasPre sep (c :: cs)) = true := by
      simp [hsep, hp]
    simp only [hb, if_true]
    obtain ⟨k, hk⟩ : ∃ k, sep.length = k + 1 :=
      ⟨sep.length - 1, by omega⟩
    rw [hk, List.drop_succ_cons]
    simp only [Nat.add_sub_cancel]
    exact congrArg ([] :: ·)
      (splitGo_fuel sep cs.length (cs.drop k).length _
        (by rw [List.length_drop]; omega)
        (Nat.le_refl _))

theorem splitOnL_cons_of_not_pre {sep : List Char} {c : Char} {cs : List Char}
    (hp : hasPre sep (c :: cs) = false) {h : List Char} {t : List (List Char)}
    (hcs : splitOnL sep cs = h :: t) :
    splitOnL sep (c :: cs) = (c :: h) :: t := by
  show splitGo sep (cs.length + 1) (c :: cs) = _
  rw [splitGo_cons]
  simp only [hp, Bool.and_false, Bool.false_eq_true, if_false]
  rw [show splitGo sep cs.length cs = h :: t from hcs]

theorem splitOnL_of_not_occurs {sep : List Char} :
    ∀ {s : List Char}, occursIn sep s = false → splitOnL sep s = [s] := by
  intro s
  induction s with
  | nil => intro _; rfl
  | cons c cs ih =>
    intro h
    exact splitOnL_cons_of_not_pre (hasPre_false_of_occursIn_false h)
      (ih (occursIn_tail_false h))

/-! ### The spec-side split agrees with the code-side split -/

theorem splitSpecGo_none {sep : List Char} (f : Nat) {s : List Char}
    (h : findAt sep s = none) : splitSpecGo sep f s = [s] := by
  cases f <;> simp [splitSpecGo, h]

theorem splitSpecGo_some {sep : List Char} (f : Nat) {s : List Char} {m : Nat}
    (h : findAt sep s = some m) :
    splitSpecGo sep (f + 1) s =
      s.take m :: splitSpecGo sep f (s.drop (m + sep.length)) := by
  simp [splitSpecGo, h]

theorem splitSpecGo_fuel {sep : List Char} (hsep : 0 < sep.length) :
    ∀ f1 f2 s, s.length ≤ f1 → s.length ≤ f2 →
      splitSpecGo sep f1 s = splitSpecGo sep f2 s := by
  intro f1
  induction f1 with
  | zero =>
    intro f2 s h1 _
    have hs : s = [] := List.eq_nil_of_length_eq_zero (Nat.le_zero.mp h1)
    subst hs
    rw [splitSpecGo_none _ (findAt_nil_of_pos hsep),
      splitSpecGo_none _ (findAt_nil_of_pos hsep)]
  | succ f1 ih =>
    intro f2 s h1 h2
    cases hf : findAt sep s with
    | none => rw [splitSpecGo_none _ hf, splitSpecGo_none _ hf]
    | some m =>
      have hs : s ≠ [] := by
        intro hnil
        rw [hnil, findAt_nil_of_pos hsep] at hf
        exact Option.noConfusion hf
      have hlen : 1 ≤ s.length := by
        cases s with
        | nil => exact absurd rfl hs
        | cons c cs => simp
      cases f2 with
      | zero => omega
      | succ f2 =>
        rw [splitSpecGo_some f1 hf, splitSpecGo_some f2 hf]
        have hd : (s.drop (m + sep.length)).length ≤ s.length - 1 := by
          rw [List.length_drop]
          omega
        rw [ih f2 _ (by omega) (by omega)]

theorem splitSpec_none {sep : List Char} {s : List Char}
    (h : findAt sep s = none) : splitSpec sep s = [s] :=
  splitSpecGo_none _ h

theorem splitSpec_some {sep : List Char} (hsep : 0 < sep.length)
    {s : List Char} {m : Nat} (h : findAt sep s = some m) :
    splitSpec sep s = s.take m :: splitSpec sep (s.drop (m + sep.length)) := by
  cases s with
  | nil =>
    rw [findAt_nil_of_pos hsep] at h
    exact Option.noConfusion h
  | cons c cs =>
    show splitSpecGo sep (cs.length + 1) (c :: cs) = _
    rw [splitSpecGo_some cs.length h]
    exact congrArg ((c :: cs).take m :: ·)
      (splitSpecGo_fuel hsep cs.length _ _
        (by rw [List.length_drop]; simp; omega) (Nat.le_refl _))

theorem splitOnL_eq_splitSpec {sep : List Char} (hsep : 0 < sep.length) :
    ∀ (s : List Char), splitOnL sep s = splitSpec sep s := by
  suffices h : ∀ (n : Nat) (s : List Char), s.length ≤ n →
      splitOnL sep s = splitSpec sep s by
    intro s
    exact h s.length s (Nat.le_refl _)
  intro n
  induction n with
  | zero =>
    intro s hlen
    have hs : s = [] := List.eq_nil_of_length_eq_zero (Nat.le_zero.mp hlen)
    subst hs
    rw [splitOnL_nil, splitSpec_none (findAt_nil_of_pos hsep)]
  | succ n ih =>
    intro s hlen
    cases s with
    | nil => rw [splitOnL_nil, splitSpec_none (findAt_nil_of_pos hsep)]
    | cons c cs =>
      simp only [List.length_cons, Nat.succ_le_succ_iff] at hlen
      by_cases hp : hasPre sep (c :: cs) = true
      · have hf : findAt sep (c :: cs) = some 0 := by simp [findAt, hp]
        rw [splitOnL_cons_of_pre hsep hp, splitSpec_some hsep hf]
        simp only [List.take_zero, Nat.zero_add]
        exact congrArg ([] :: ·)
          (ih _ (by rw [List.length_drop]; simp; omega))
      · have hp' : hasPre sep (c :: cs) = false := by simpa using hp
        have hf : findAt sep (c :: cs) = (findAt sep cs).map (· + 1) := by
          simp [findAt, hp']
        cases hcs : findAt sep cs with
        | none =>
          have h1 : splitOnL sep cs = [cs] :=
            splitOnL_of_not_occurs (occursIn_false_of_findAt_none hcs)
          rw [splitOnL_cons_of_not_pre hp' h1,
            splitSpec_none (by rw [hf, hcs]; rfl)]
        | some m =>
          have h1 : splitOnL sep cs = splitSpec sep cs := ih cs hlen
          rw [splitSpec_some hsep hcs] at h1
          rw [splitOnL_cons_of_not_pre hp' h1,
            splitSpec_some hsep (show findAt sep (c :: cs) = some (m + 1) by
              rw [hf, hcs]; rfl)]
          rw [List.take_succ_cons]
          have harith : m + 1 + sep.length = (m + sep.length) + 1 := by omega
          rw [harith, List.drop_succ_cons]

/-! ### Split is a left inverse of join

The separator is a newline, the delimiter line, and a newline.  When the
delimiter contains no newline and no joined segment contains the delimiter,
no spurious occurrence of the separator can arise across a join boundary,
and the split recovers the segments exactly. -/

theorem newline_boundary {d : List Char} (hnl : '\n' ∉ d) :
    ∀ (a b : List Char), d ++ ['\n'] = a ++ '\n' :: b → a = d ∧ b = [] := by
  induction d with
  | nil =>
    intro a b h
    cases a with
    | nil =>
      simp only [List.nil_append] at h
      injection h with _ h2
      exact ⟨rfl, h2.symm⟩
    | cons x a' =>
      simp only [List.nil_append, List.cons_append] at h
      injection h with _ h2
      exact absurd h2.symm (by simp)
  | cons e d' ih =>
    intro a b h
    have hnl' : '\n' ∉ d' := fun hm => hnl (List.mem_cons_of_mem _ hm)
    have hne : e ≠ '\n' := fun he => hnl (he ▸ List.mem_cons_self _ _)
    cases a with
    | nil =>
      simp only [List.nil_append, List.cons_append] at h
      injection h with h1 _
      exact absurd h1 hne
    | cons x a' =>
      simp only [List.cons_append] at h
      injection h with h1 h2
      obtain ⟨ha, hb⟩ := ih hnl' a' b h2
      exact ⟨by rw [h1, ha], hb⟩

theorem sep_not_pre_of_boundary {d : List Char} (hnl : '\n' ∉ d)
    {c : Char} {p' : List Char} (hocc : occursIn d (c :: p') = false)
    (t : List Char) :
    hasPre ('\n' :: d ++ ['\n']) ((c :: p') ++ ('\n' :: d ++ ['\n']) ++ t)
      = false := by
  cases hhp : hasPre ('\n' :: d ++ ['\n']) ((c :: p') ++ ('\n' :: d ++ ['\n']) ++ t) with
  | false => rfl
  | true =>
    exfalso
    obtain ⟨r, hr⟩ := hasPre_iff_append.mp hhp
    rw [List.append_assoc] at hr
    -- hr : (c :: p') ++ (sep ++ t) = sep ++ r, with sep abbreviating the separator
    by_cases hlen : ('\n' :: d ++ ['\n']).length ≤ (c :: p').length
    · -- the separator fits inside c :: p', so d occurs inside c :: p'
      have htake := congrArg (List.take ('\n' :: d ++ ['\n']).length) hr
      rw [List.take_append_of_le_length hlen, List.take_left] at htake
      have : occursIn d (c :: p') = true := by
        apply occursIn_of_append ['\n']
          ('\n' :: (c :: p').drop ('\n' :: d ++ ['\n']).length)
        conv_lhs => rw [← List.take_append_drop ('\n' :: d ++ ['\n']).length (c :: p')]
        rw [htake]
        simp
      rw [this] at hocc
      exact Bool.noConfusion hocc
    · -- c :: p' is a proper prefix of the separator: analyze the border
      push_neg at hlen
      have hple : (c :: p').length ≤ ('\n' :: d ++ ['\n']).length :=
        Nat.le_of_lt hlen
      have htake := congrArg (List.take (c :: p').length) hr
      rw [List.take_left, List.take_append_of_le_length hple] at htake
      have hdrop := congrArg (List.drop (c :: p').length) hr
      rw [List.drop_left, List.drop_append_of_le_length hple] at hdrop
      -- htake : c :: p' = sep.take p.length, hdrop : sep ++ t = sep.drop p.length ++ r
      have hsep_eq : (c :: p') ++ ('\n' :: d ++ ['\n']).drop (c :: p').length =
          '\n' :: d ++ ['\n'] := by
        conv_rhs => rw [← List.take_append_drop (c :: p').length ('\n' :: d ++ ['\n'])]
        rw [← htake]
      cases hr0eq : ('\n' :: d ++ ['\n']).drop (c :: p').length with
      | nil =>
        rw [hr0eq, List.append_nil] at hsep_eq
        have hl := congrArg List.length hsep_eq
        simp at hl hlen
        omega
      | cons r1 r0' =>
        have hhead : r1 = '\n' := by
          rw [hr0eq] at hdrop
          simp only [List.cons_append] at hdrop
          injection hdrop with h1 _
          exact h1.symm
        rw [hr0eq, hhead] at hsep_eq
        simp only [List.cons_append] at hsep_eq
        injection hsep_eq with hc htail
        -- htail : p' ++ '\n' :: r0' = d ++ ['\n']
        obtain ⟨hpd, _⟩ := newline_boundary hnl p' r0' htail.symm
        have : occursIn d (c :: p') = true := by
          apply occursIn_of_append ['\n'] []
          rw [hc, hpd]
          simp
        rw [this] at hocc
        exact Bool.noConfusion hocc

theorem splitOnL_append_sep {d : List Char} (hnl : '\n' ∉ d) :
    ∀ (p : List Char), occursIn d p = false → ∀ (t : List Char),
      splitOnL ('\n' :: d ++ ['\n']) (p ++ ('\n' :: d ++ ['\n']) ++ t) =
        p :: splitOnL ('\n' :: d ++ ['\n']) t := by
  intro p
  induction p with
  | nil =>
    intro _ t
    rw [List.nil_append]
    rw [splitOnL_cons_of_pre (by simp) (hasPre_append _ t)]
    rw [List.drop_left]
  | cons c p' ih =>
    intro hocc t
    have hp : hasPre ('\n' :: d ++ ['\n'])
        ((c :: p') ++ ('\n' :: d ++ ['\n']) ++ t) = false :=
      sep_not_pre_of_boundary hnl hocc t
    have hocc' : occursIn d p' = false := occursIn_tail_false hocc
    have hrec := ih hocc' t
    show splitOnL ('\n' :: d ++ ['\n'])
      (c :: (p' ++ ('\n' :: d ++ ['\n']) ++ t)) = _
    rw [splitOnL_cons_of_not_pre (by simpa using hp) hrec]

theorem joinWith_cons_cons (sep p q : List Char) (ps : List (List Char)) :
    joinWith sep (p :: q :: ps) = p ++ sep ++ joinWith sep (q :: ps) := rfl

theorem occursIn_exists {pat : List Char} :
    ∀ {s : List Char}, occursIn pat s = true → ∃ x y, s = x ++ pat ++ y := by
  intro s
  induction s with
  | nil =>
    intro h
    simp only [occursIn] at h
    obtain ⟨t, ht⟩ := hasPre_iff_append.mp h
    exact ⟨[], t, by simpa using ht⟩
  | cons a s' ih =>
    intro h
    simp only [occursIn, Bool.or_eq_true] at h
    cases h with
    | inl hp =>
      obtain ⟨t, ht⟩ := hasPre_iff_append.mp hp
      exact ⟨[], t, by simpa using ht⟩
    | inr ho =>
      obtain ⟨x, y, hxy⟩ := ih ho
      exact ⟨a :: x, y, by rw [hxy]; rfl⟩

theorem occursIn_d_of_sep {d p : List Char}
    (h : occursIn ('\n' :: d ++ ['\n']) p = true) : occursIn d p = true := by
  obtain ⟨x, y, hxy⟩ := occursIn_exists h
  apply occursIn_of_append (x ++ ['\n']) ('\n' :: y)
  rw [hxy]
  simp

theorem occursIn_false_of_sep {d p : List Char} (h : occursIn d p = false) :
    occursIn ('\n' :: d ++ ['\n']) p = false := by
  cases hocc : occursIn ('\n' :: d ++ ['\n']) p with
  | false => rfl
  | true =>
    rw [occursIn_d_of_sep hocc] at h
    exact Bool.noConfusion h

theorem splitOnL_joinWith {d : List Char} (hnl : '\n' ∉ d) :
    ∀ (parts : List (List Char)), parts ≠ [] →
      (∀ p ∈ parts, occursIn d p = false) →
      splitOnL ('\n' :: d ++ ['\n']) (joinWith ('\n' :: d ++ ['\n']) parts) =
        parts := by
  intro parts
  induction parts with
  | nil => intro h _; exact absurd rfl h
  | cons p ps ih =>
    intro _ hfree
    cases ps with
    | nil =>
      show splitOnL _ p = [p]
      exact splitOnL_of_not_occurs
        (occursIn_false_of_sep (hfree p (List.mem_cons_self _ _)))
    | cons q ps' =>
      rw [joinWith_cons_cons]
      rw [splitOnL_append_sep hnl p (hfree p (List.mem_cons_self _ _))]
      rw [ih (List.cons_ne_nil _ _)
        (fun r hr => hfree r (List.mem_cons_of_mem _ hr))]

/-! ### Lemmas about the migration loop -/

theorem applyList_ok {σ E : Type} (exec : σ → List Char → Except E σ) :
    ∀ (l : List (List Char)) (i : Nat) (st : σ) (st' : σ),
      (applyList exec i l st).1 = Except.ok st' →
      (applyList exec i l st).2 = enumFromEv i l := by
  intro l
  induction l with
  | nil => intro i st st' _; rfl
  | cons sql rest ih =>
    intro i st st' h
    simp only [applyList] at h ⊢
    cases hx : exec st sql with
    | error e => rw [hx] at h; simp at h
    | ok st1 =>
      rw [hx] at h
      simp only at h ⊢
      rw [enumFromEv]
      exact congrArg (Event.execBody i sql :: ·) (ih (i + 1) st1 st' h)

theorem applyList_err {σ E : Type} (exec : σ → List Char → Except E σ) :
    ∀ (l : List (List Char)) (i : Nat) (st : σ) (j : Nat) (e : E),
      (applyList exec i l st).1 = Except.error (j, e) →
      i ≤ j ∧ j < i + l.length ∧
        (applyList exec i l st).2 = enumFromEv i (l.take (j + 1 - i)) ∧
        ∃ st', exec st' (l.getD (j - i) []) = Except.error e := by
  intro l
  induction l with
  | nil =>
    intro i st j e h
    exact Except.noConfusion h
  | cons sql rest ih =>
    intro i st j e h
    simp only [applyList] at h ⊢
    cases hx : exec st sql with
    | error e0 =>
      rw [hx] at h
      simp only at h ⊢
      injection h with h1
      injection h1 with hj he
      subst hj
      subst he
      refine ⟨Nat.le_refl _, by simp, ?_, st, by simpa using hx⟩
      have : i + 1 - i = 1 := by omega
      rw [this]
      rfl
    | ok st1 =>
      rw [hx] at h
      simp only at h ⊢
      obtain ⟨h1, h2, h3, st', hst'⟩ := ih (i + 1) st1 j e h
      refine ⟨by omega, by simp only [List.length_cons]; omega, ?_, st', ?_⟩
      · have harith : j + 1 - i = (j + 1 - (i + 1)) + 1 := by omega
        rw [harith, List.take_succ_cons, enumFromEv, h3]
      · have harith : j - i = (j - (i + 1)) + 1 := by omega
        rw [harith]
        simpa using hst'

theorem applyList_events {σ E : Type} (exec : σ → List Char → Except E σ) :
    ∀ (l : List (List Char)) (i : Nat) (st : σ) (ev : Event),
      ev ∈ (applyList exec i l st).2 → ∃ j sql, ev = Event.execBody j sql := by
  intro l
  induction l with
  | nil => intro i st ev h; exact absurd h (by simp [applyList])
  | cons sql rest ih =>
    intro i st ev h
    simp only [applyList] at h
    cases hx : exec st sql with
    | error e =>
      rw [hx] at h
      simp at h
      exact ⟨i, sql, h⟩
    | ok st1 =>
      rw [hx] at h
      simp only [List.mem_cons] at h
      cases h with
      | inl h => exact ⟨i, sql, h⟩
      | inr h => exact ih (i + 1) st1 ev h

theorem enumFromEv_events :
    ∀ (l : List (List Char)) (i : Nat) (ev : Event),
      ev ∈ enumFromEv i l → ∃ j sql, ev = Event.execBody j sql := by
  intro l
  induction l with
  | nil => intro i ev h; exact absurd h (by simp [enumFromEv])
  | cons sql rest ih =>
    intro i ev h
    simp only [enumFromEv, List.mem_cons] at h
    cases h with
    | inl h => exact ⟨i, sql, h⟩
    | inr h => exact ih (i + 1) ev h

theorem execIdxs_enumFromEv :
    ∀ (l : List (List Char)) (i : Nat),
      execIdxs (enumFromEv i l) = natsFrom i l.length := by
  intro l
  induction l with
  | nil => intro i; rfl
  | cons sql rest ih =>
    intro i
    simp only [enumFromEv, execIdxs, List.filterMap_cons, List.length_cons]
    rw [natsFrom]
    exact congrArg (i :: ·) (ih (i + 1))

theorem mem_enumFromEv :
    ∀ (l : List (List Char)) (i k : Nat), k < l.length →
      Event.execBody (i + k) (l.getD k []) ∈ enumFromEv i l := by
  intro l
  induction l with
  | nil => intro i k hk; simp at hk
  | cons sql rest ih =>
    intro i k hk
    cases k with
    | zero => simp [enumFromEv]
    | succ k =>
      simp only [List.length_cons, Nat.succ_lt_succ_iff] at hk
      have h2 := ih (i + 1) k hk
      rw [enumFromEv]
      refine List.mem_cons_of_mem _ ?_
      rw [List.getD_cons_succ]
      have harith : i + (k + 1) = (i + 1) + k := by omega
      rw [harith]
      exact h2

/-- Exhaustive description of every exit path of `Schema.Migrate`: exactly
one of the eight disjuncts describes any given call. -/
theorem Migrate_spec {σ E : Type} (env : Env σ E) (s : Schema) (db : DBState σ) :
    (∃ e, env.beginErr = some e ∧
      s.Migrate env db = (MigResult.err (MigErr.beginTx e), db, [])) ∨
    (env.beginErr = none ∧ ∃ e, env.readErr = some e ∧
      s.Migrate env db = (MigResult.err (MigErr.readVersion e), db,
        [Event.readVersion, Event.rollback])) ∨
    (env.beginErr = none ∧ env.readErr = none ∧
      (s.Versions.length : Int) ≤ db.version ∧
      s.Migrate env db = (MigResult.ok, db, [Event.readVersion, Event.rollback])) ∨
    (env.beginErr = none ∧ env.readErr = none ∧ db.version < 0 ∧
      db.version < (s.Versions.length : Int) ∧
      s.Migrate env db = (MigResult.panicked, db,
        [Event.readVersion, Event.rollback])) ∨
    (env.beginErr = none ∧ env.readErr = none ∧ 0 ≤ db.version ∧
      db.version < (s.Versions.length : Int) ∧
      ∃ tr,
        ((∃ j e, applyList env.execBody db.version.toNat
              (s.Versions.drop db.version.toNat) db.data
              = (Except.error (j, e), tr) ∧
          s.Migrate env db = (MigResult.err (MigErr.applyVersion j e), db,
            Event.readVersion :: tr ++ [Event.rollback])) ∨
        (∃ st', applyList env.execBody db.version.toNat
              (s.Versions.drop db.version.toNat) db.data
              = (Except.ok st', tr) ∧
          ((∃ e, env.writeErr = some e ∧
            s.Migrate env db = (MigResult.err (MigErr.writeVersion e), db,
              Event.readVersion :: tr ++
                [Event.writeVersion s.Versions.length, Event.rollback])) ∨
          (env.writeErr = none ∧ ∃ e, env.commitErr = some e ∧
            s.Migrate env db = (MigResult.err (MigErr.commitTx e), db,
              Event.readVersion :: tr ++
                [Event.writeVersion s.Versions.length, Event.commitAttempt,
                  Event.rollbackNoop])) ∨
          (env.writeErr = none ∧ env.commitErr = none ∧
            s.Migrate env db = (MigResult.ok,
              DBState.mk st' (s.Versions.length : Int),
              Event.readVersion :: tr ++
                [Event.writeVersion s.Versions.length, Event.commitAttempt,
                  Event.rollbackNoop])))))) := by
  cases hb : env.beginErr with
  | some e =>
    exact Or.inl ⟨e, rfl, by simp [Schema.Migrate, hb]⟩
  | none =>
    cases hr : env.readErr with
    | some e =>
      exact Or.inr (Or.inl ⟨rfl, e, rfl, by simp [Schema.Migrate, hb, hr]⟩)
    | none =>
      by_cases hge : (s.Versions.length : Int) ≤ db.version
      · exact Or.inr (Or.inr (Or.inl ⟨rfl, rfl, hge,
          by simp [Schema.Migrate, hb, hr, hge]⟩))
      · by_cases hneg : db.version < 0
        · exact Or.inr (Or.inr (Or.inr (Or.inl ⟨rfl, rfl, hneg, by omega,
            by simp [Schema.Migrate, hb, hr, hge, hneg]⟩)))
        · rcases hal : applyList env.execBody db.version.toNat
            (s.Versions.drop db.version.toNat) db.data with ⟨res, tr⟩
          refine Or.inr (Or.inr (Or.inr (Or.inr
            ⟨rfl, rfl, by omega, by omega, tr, ?_⟩)))
          cases res with
          | error je =>
            rcases je with ⟨j, e⟩
            exact Or.inl ⟨j, e, rfl,
              by simp [Schema.Migrate, hb, hr, hge, hneg, hal]⟩
          | ok st' =>
            refine Or.inr ⟨st', rfl, ?_⟩
            cases hw : env.writeErr with
            | some e =>
              exact Or.inl ⟨e, rfl,
                by simp [Schema.Migrate, hb, hr, hge, hneg, hal, hw]⟩
            | none =>
              cases hc : env.commitErr with
              | some e =>
                exact Or.inr (Or.inl ⟨rfl, e, rfl,
                  by simp [Schema.Migrate, hb, hr, hge, hneg, hal, hw, hc]⟩)
              | none =>
                exact Or.inr (Or.inr ⟨rfl, rfl,
                  by simp [Schema.Migrate, hb, hr, hge, hneg, hal, hw, hc]⟩)

/-! ### Further helpers for the claims -/

theorem versions_length_pos (sch : Schema) : 1 ≤ sch.Versions.length :=
  Nat.succ_le_of_lt (List.length_pos.mpr (splitGo_ne_nil _ _ _))

theorem getD_drop (l : List (List Char)) :
    ∀ (n m : Nat), (l.drop n).getD m [] = l.getD (n + m) [] := by
  induction l with
  | nil => intro n m; simp
  | cons a l ih =>
    intro n m
    cases n with
    | zero => simp
    | succ n =>
      rw [List.drop_succ_cons]
      have harith : n + 1 + m = (n + m) + 1 := by omega
      rw [harith, List.getD_cons_succ]
      exact ih n m

theorem getD_take (l : List (List Char)) :
    ∀ (n m : Nat), m < n → (l.take n).getD m [] = l.getD m [] := by
  induction l with
  | nil => intro n m _; simp
  | cons a l ih =>
    intro n m hm
    cases n with
    | zero => omega
    | succ n =>
      rw [List.take_succ_cons]
      cases m with
      | zero => simp
      | succ m =>
        rw [List.getD_cons_succ, List.getD_cons_succ]
        exact ih n m (by omega)

theorem mem_enumFromEv_inv :
    ∀ (l : List (List Char)) (i j : Nat) (sql : List Char),
      Event.execBody j sql ∈ enumFromEv i l →
      ∃ k, k < l.length ∧ j = i + k ∧ sql = l.getD k [] := by
  intro l
  induction l with
  | nil => intro i j sql h; exact absurd h (by simp [enumFromEv])
  | cons b l ih =>
    intro i j sql h
    simp only [enumFromEv, List.mem_cons] at h
    cases h with
    | inl h =>
      injection h with hj hsql
      exact ⟨0, by simp, by omega, by simpa using hsql⟩
    | inr h =>
      obtain ⟨k, hk, hj, hsql⟩ := ih (i + 1) j sql h
      exact ⟨k + 1, by simpa using hk, by omega, by simpa using hsql⟩

theorem enum_no_special (i : Nat) (l : List (List Char)) :
    Event.commitAttempt ∉ enumFromEv i l ∧
    Event.rollback ∉ enumFromEv i l ∧
    Event.rollbackNoop ∉ enumFromEv i l := by
  refine ⟨fun h => ?_, fun h => ?_, fun h => ?_⟩ <;>
    (obtain ⟨j, sql, hev⟩ := enumFromEv_events l i _ h; exact Event.noConfusion hev)

theorem countReads_append (a b : List Event) :
    countReads (a ++ b) = countReads a + countReads b := by
  simp [countReads, List.filter_append]

theorem countWrites_append (a b : List Event) :
    countWrites (a ++ b) = countWrites a + countWrites b := by
  simp [countWrites, List.filter_append]

theorem countReads_enumFromEv :
    ∀ (l : List (List Char)) (i : Nat), countReads (enumFromEv i l) = 0 := by
  intro l
  induction l with
  | nil => intro i; rfl
  | cons b l ih =>
    intro i
    simp only [enumFromEv, countReads, List.filter_cons]
    exact ih (i + 1)

theorem countWrites_enumFromEv :
    ∀ (l : List (List Char)) (i : Nat), countWrites (enumFromEv i l) = 0 := by
  intro l
  induction l with
  | nil => intro i; rfl
  | cons b l ih =>
    intro i
    simp only [enumFromEv, countWrites, List.filter_cons]
    exact ih (i + 1)

theorem execIdxs_cons_read (tr : List Event) :
    execIdxs (Event.readVersion :: tr) = execIdxs tr := rfl

theorem execIdxs_append (a b : List Event) :
    execIdxs (a ++ b) = execIdxs a ++ execIdxs b := by
  simp [execIdxs, List.filterMap_append]

theorem Migrate_success_version_ge {σ E : Type} (env : Env σ E) (s : Schema)
    (db db' : DBState σ) (tr : List Event)
    (h : s.Migrate env db = (MigResult.ok, db', tr)) :
    (s.Versions.length : Int) ≤ db'.version := by
  rcases Migrate_spec env s db with
    ⟨e, _, heq⟩ | ⟨_, e, _, heq⟩ | ⟨_, _, hge, heq⟩ | ⟨_, _, _, _, heq⟩ |
    ⟨_, _, _, _, tr0, ⟨j, e, _, heq⟩ |
      ⟨st', _, ⟨e, _, heq⟩ | ⟨_, e, _, heq⟩ | ⟨_, _, heq⟩⟩⟩ <;>
    rw [heq] at h <;> simp only [Prod.mk.injEq] at h
  · exact absurd h.1 (by simp)
  · exact absurd h.1 (by simp)
  · rw [← h.2.1]; exact hge
  · exact absurd h.1 (by simp)
  · exact absurd h.1 (by simp)
  · exact absurd h.1 (by simp)
  · exact absurd h.1 (by simp)
  · rw [← h.2.1]

/-- Environment whose schema state is the log of executed SQL bodies:
every operation succeeds, and executing a body appends it to the log. -/
def envLog : Env (List (List Char)) Unit :=
  ⟨none, none, fun st sql => Except.ok (st ++ [sql]), none, none⟩

/-- Same as `envLog` except that executing the body consisting of the single
character B fails. -/
def envFailB : Env (List (List Char)) Unit :=
  ⟨none, none,
    fun st sql => if sql = ['B'] then Except.error () else Except.ok (st ++ [sql]),
    none, none⟩

/-! ### Claim theorems -/

/-- C2: for every body and delimiter, `Versions` returns exactly the
segments of the body split on the substring newline-delimiter-newline, in
order of appearance (formalised as agreement with `splitSpec`, the direct
transcription of the specification's splitting algorithm, which emits the
segment before each leftmost occurrence in turn, the prefix before the
first occurrence being version 0); and if that substring never occurs in
the body the result is the single-element sequence containing the whole
body.  `Versions` is a pure total function, so determinism and absence of
error conditions hold by construction. -/
theorem versions_agrees_with_spec_split (sch : Schema) :
    sch.Versions = splitSpec sch.sepL sch.schema ∧
    (occursIn sch.sepL sch.schema = false → sch.Versions = [sch.schema]) := by
  constructor
  · exact splitOnL_eq_splitSpec (by simp [Schema.sepL]) sch.schema
  · exact fun h => splitOnL_of_not_occurs h

/-- Witness for C2 at a concrete schema with no delimiter occurrence. -/
theorem versions_agrees_with_spec_split_witness :
    (NewSchemaWithMagic ['a'] ['M']).Versions = [['a']] :=
  (versions_agrees_with_spec_split (NewSchemaWithMagic ['a'] ['M'])).2 (by decide)

/-- C6 counterexample: the claim as stated is false.  With delimiter M the
segments a-newline-M and b contain no occurrence of the separator
newline-M-newline, yet splitting their join does not return them: the join
a-newline-M-newline-M-newline-b has a separator occurrence starting at
index 1, so `Versions` returns the segments a and M-newline-b instead. -/
theorem versions_joinWith_not_inverse_in_general :
    occursIn ('\n' :: ['M'] ++ ['\n']) "a\nM".toList = false ∧
    occursIn ('\n' :: ['M'] ++ ['\n']) ['b'] = false ∧
    (NewSchemaWithMagic
        (joinWith ('\n' :: ['M'] ++ ['\n']) ["a\nM".toList, ['b']])
        ['M']).Versions ≠ ["a\nM".toList, ['b']] := by
  refine ⟨by decide, by decide, by decide⟩

/-- C6 amended: for every nonempty list of segments, none containing the
delimiter itself as a substring, and a delimiter containing no newline
character, `Versions` applied to the blob built by joining the segments
with newline-delimiter-newline yields exactly the original segments in
order. -/
theorem versions_joinWith_roundtrip (d : List Char) (parts : List (List Char))
    (hnl : '\n' ∉ d) (hne : parts ≠ [])
    (hfree : ∀ p ∈ parts, occursIn d p = false) :
    (NewSchemaWithMagic (joinWith ('\n' :: d ++ ['\n']) parts) d).Versions
      = parts :=
  splitOnL_joinWith hnl parts hne hfree

/-- Witness for the amended C6 at two concrete newline-free segments. -/
theorem versions_joinWith_roundtrip_witness :
    (NewSchemaWithMagic
        (joinWith ('\n' :: ['M'] ++ ['\n']) [['a'], ['b']]) ['M']).Versions
      = [['a'], ['b']] :=
  versions_joinWith_roundtrip ['M'] [['a'], ['b']]
    (by decide) (by decide) (by decide)

/-- C9 counterexample: the default delimiter constant has 79 characters,
not 80 as the claim states. -/
theorem delimiter_length_not_80 :
    Delimiter.toList.length = 79 ∧ (79 : Nat) ≠ 80 :=
  ⟨by decide, by decide⟩

/-- C9 amended: the default delimiter constant used by `NewSchema` (and
hence by the package-level `Migrate` convenience function, which goes
through `NewSchema`) is a fixed string of exactly 79 characters that
begins with a dash, ends with a dash, and contains the literal text
NEW VERSION. -/
theorem delimiter_shape :
    Delimiter.toList.length = 79 ∧
    Delimiter.toList.headD ' ' = '-' ∧
    Delimiter.toList.getLastD ' ' = '-' ∧
    occursIn ("NEW VERSION".toList) Delimiter.toList = true ∧
    (∀ sch : List Char, (NewSchema sch).magic = Delimiter.toList) :=
  ⟨by decide, by decide, by decide, by decide, fun _ => rfl⟩

/-- C10: `Versions` always returns at least one element; the empty schema
string splits into the one-element sequence containing the empty body, and
migrating a fresh database (counter 0) with an empty schema is not a
no-op: it executes one empty SQL body and, on success, sets the counter
to 1. -/
theorem versions_nonempty_empty_schema_migrates :
    (∀ sch : Schema, 1 ≤ sch.Versions.length) ∧
    (∀ m : List Char, (NewSchemaWithMagic [] m).Versions = [[]]) ∧
    ((NewSchemaWithMagic [] ['M']).Migrate envLog ⟨[], 0⟩ =
      (MigResult.ok, ⟨[[]], 1⟩,
        [Event.readVersion, Event.execBody 0 [], Event.writeVersion 1,
          Event.commitAttempt, Event.rollbackNoop])) :=
  ⟨versions_length_pos, fun _ => rfl, by decide⟩

/-- C1: whenever `Migrate` returns an error — at any stage — the committed
database state (schema contents and version counter alike) is exactly the
state before the call; and in the particular scenario of a two-version
schema whose second version fails (versions A and B with B invalid,
starting counter 0), the call fails with the error identifying index 1,
the database is unchanged, so the counter is still 0 and version A's
effects are not visible. -/
theorem migrate_error_preserves_db :
    (∀ (σ E : Type) (env : Env σ E) (s : Schema) (db : DBState σ)
      (o : MigResult E) (db' : DBState σ) (tr : List Event),
      s.Migrate env db = (o, db', tr) → (∃ e, o = MigResult.err e) →
      db' = db) ∧
    ((NewSchemaWithMagic ("A\nM\nB".toList) ['M']).Migrate envFailB ⟨[], 0⟩ =
      (MigResult.err (MigErr.applyVersion 1 ()), ⟨[], 0⟩,
        [Event.readVersion, Event.execBody 0 ['A'], Event.execBody 1 ['B'],
          Event.rollback])) := by
  constructor
  · intro σ E env s db o db' tr h hE
    obtain ⟨e0, ho⟩ := hE
    subst ho
    rcases Migrate_spec env s db with
      ⟨e, _, heq⟩ | ⟨_, e, _, heq⟩ | ⟨_, _, _, heq⟩ | ⟨_, _, _, _, heq⟩ |
      ⟨_, _, _, _, tr0, ⟨j, e, _, heq⟩ |
        ⟨st', _, ⟨e, _, heq⟩ | ⟨_, e, _, heq⟩ | ⟨_, _, heq⟩⟩⟩ <;>
      rw [heq] at h <;> simp only [Prod.mk.injEq] at h <;>
      first
        | exact h.2.1.symm
        | exact absurd h.1 (by simp)
  · decide

/-- Witness for C1's universal part: the unchanged-database conclusion at
the concrete failing scenario. -/
theorem migrate_error_preserves_db_witness :
    (⟨[], 0⟩ : DBState (List (List Char))) = ⟨[], 0⟩ :=
  migrate_error_preserves_db.1 _ _ envFailB
    (NewSchemaWithMagic ("A\nM\nB".toList) ['M']) ⟨[], 0⟩
    (MigResult.err (MigErr.applyVersion 1 ())) ⟨[], 0⟩
    [Event.readVersion, Event.execBody 0 ['A'], Event.execBody 1 ['B'],
      Event.rollback]
    (by decide) ⟨MigErr.applyVersion 1 (), rfl⟩

/-- C3 counterexample: the claim as stated is false.  A database whose
stored counter (2) already exceeds the number of versions (1) migrates
successfully as a no-op, and afterwards the counter is still 2, not equal
to the total version count 1. -/
theorem migrate_success_counter_above_count :
    (NewSchemaWithMagic ['A'] ['M']).Migrate envLog ⟨[], 2⟩ =
      (MigResult.ok, ⟨[], 2⟩, [Event.readVersion, Event.rollback]) ∧
    (NewSchemaWithMagic ['A'] ['M']).Versions.length = 1 ∧
    ((2 : Int) ≠ (1 : Int)) :=
  ⟨by decide, by decide, by decide⟩

/-- C3 amended: for every schema source and every starting database state
whose counter is at most the number of versions, if `Migrate` returns
success then the applied-version counter equals the total number of
versions and every version body from the starting counter up to the total
count has been executed. -/
theorem migrate_success_counter_and_bodies
    (σ E : Type) (env : Env σ E) (s : Schema) (db : DBState σ)
    (db' : DBState σ) (tr : List Event)
    (h : s.Migrate env db = (MigResult.ok, db', tr))
    (hle : db.version ≤ (s.Versions.length : Int)) :
    db'.version = (s.Versions.length : Int) ∧
    ∀ j : Nat, db.version ≤ (j : Int) → j < s.Versions.length →
      Event.execBody j (s.Versions.getD j []) ∈ tr := by
  rcases Migrate_spec env s db with
    ⟨e, _, heq⟩ | ⟨_, e, _, heq⟩ | ⟨_, _, hge, heq⟩ | ⟨_, _, _, _, heq⟩ |
    ⟨_, _, h0, hlt, tr0, ⟨j, e, _, heq⟩ |
      ⟨st', hal, ⟨e, _, heq⟩ | ⟨_, e, _, heq⟩ | ⟨_, _, heq⟩⟩⟩ <;>
    rw [heq] at h <;> simp only [Prod.mk.injEq] at h
  · exact absurd h.1 (by simp)
  · exact absurd h.1 (by simp)
  · -- no-op path: the counter must already equal the count
    obtain ⟨_, hdb, _⟩ := h
    constructor
    · rw [← hdb]; omega
    · intro j hj1 hj2
      exfalso
      have : ((s.Versions.length : Int)) ≤ (j : Int) := le_trans hge hj1
      have : (s.Versions.length : Nat) ≤ j := by exact_mod_cast this
      omega
  · exact absurd h.1 (by simp)
  · exact absurd h.1 (by simp)
  · exact absurd h.1 (by simp)
  · exact absurd h.1 (by simp)
  · -- full success path
    obtain ⟨_, hdb, htr⟩ := h
    have htr0 : tr0 = enumFromEv db.version.toNat
        (s.Versions.drop db.version.toNat) := by
      have h2 := applyList_ok env.execBody (s.Versions.drop db.version.toNat)
        db.version.toNat db.data st' (by rw [hal])
      rw [hal] at h2
      exact h2
    constructor
    · rw [← hdb]
    · intro j hj1 hj2
      have hvle : db.version.toNat ≤ j := by omega
      have hmem := mem_enumFromEv (s.Versions.drop db.version.toNat)
        db.version.toNat (j - db.version.toNat)
        (by rw [List.length_drop]; omega)
      rw [getD_drop] at hmem
      have harith : db.version.toNat + (j - db.version.toNat) = j := by omega
      rw [harith] at hmem
      rw [← htr0] at hmem
      rw [← htr]
      exact List.mem_cons_of_mem _ (List.mem_append_left _ hmem)

/-- Witness for the amended C3: the concrete two-version migration ends
with the counter equal to the version count 2. -/
theorem migrate_success_counter_and_bodies_witness :
    (⟨[['A'], ['B']], 2⟩ : DBState (List (List Char))).version =
      ((NewSchemaWithMagic ("A\nM\nB".toList) ['M']).Versions.length : Int) :=
  (migrate_success_counter_and_bodies _ _ envLog
    (NewSchemaWithMagic ("A\nM\nB".toList) ['M']) ⟨[], 0⟩
    ⟨[['A'], ['B']], 2⟩
    [Event.readVersion, Event.execBody 0 ['A'], Event.execBody 1 ['B'],
      Event.writeVersion 2, Event.commitAttempt, Event.rollbackNoop]
    (by decide) (by decide)).1

/-- C4: when the database operations that open the transaction and read the
counter succeed and the stored counter is at least the number of versions,
`Migrate` returns success immediately: the trace contains only the counter
read and the released transaction, so no version body is executed, no
counter write happens, and the database is unchanged.  Consequently a
second `Migrate` call right after a successful one (against any
environment whose begin and read operations succeed) executes no SQL,
returns no error, and leaves the database — in particular its counter —
unchanged. -/
theorem migrate_noop_and_idempotent :
    (∀ (σ E : Type) (env : Env σ E) (s : Schema) (db : DBState σ),
      env.beginErr = none → env.readErr = none →
      (s.Versions.length : Int) ≤ db.version →
      s.Migrate env db = (MigResult.ok, db,
        [Event.readVersion, Event.rollback])) ∧
    (∀ (σ E : Type) (env env' : Env σ E) (s : Schema) (db db' : DBState σ)
      (tr : List Event),
      s.Migrate env db = (MigResult.ok, db', tr) →
      env'.beginErr = none → env'.readErr = none →
      s.Migrate env' db' = (MigResult.ok, db',
        [Event.readVersion, Event.rollback])) := by
  have hnoop : ∀ (σ E : Type) (env : Env σ E) (s : Schema) (db : DBState σ),
      env.beginErr = none → env.readErr = none →
      (s.Versions.length : Int) ≤ db.version →
      s.Migrate env db = (MigResult.ok, db,
        [Event.readVersion, Event.rollback]) := by
    intro σ E env s db hb hr hge
    simp [Schema.Migrate, hb, hr, hge]
  refine ⟨hnoop, ?_⟩
  intro σ E env env' s db db' tr h hb' hr'
  exact hnoop σ E env' s db' hb' hr'
    (Migrate_success_version_ge env s db db' tr h)

/-- Witness for C4: on a database whose counter 5 exceeds the single
version, the call is a success touching nothing. -/
theorem migrate_noop_and_idempotent_witness :
    (NewSchemaWithMagic ['A'] ['M']).Migrate envLog ⟨[], 5⟩ =
      (MigResult.ok, ⟨[], 5⟩, [Event.readVersion, Event.rollback]) :=
  migrate_noop_and_idempotent.1 _ _ envLog
    (NewSchemaWithMagic ['A'] ['M']) ⟨[], 5⟩ rfl rfl (by decide)

theorem enum_bodies (vs l' : List (List Char)) (v : Nat)
    (hgd : ∀ kk, kk < l'.length → l'.getD kk [] = vs.getD (v + kk) []) :
    ∀ j sql, Event.execBody j sql ∈ enumFromEv v l' → sql = vs.getD j [] := by
  intro j sql hmem
  obtain ⟨kk, hkk, hj, hsql⟩ := mem_enumFromEv_inv l' v j sql hmem
  rw [hgd kk hkk] at hsql
  rw [hj]
  exact hsql

/-- C5: when the transaction opens and the counter read succeeds, for every
starting counter v with 0 ≤ v < number of versions, `Migrate` attempts the
version bodies at the consecutive indices v, v+1, ... (each execution
receiving exactly the body at its index): some number k ≥ 1 of bodies is
attempted, all pending bodies when no execution fails, and executions stop
right at the failing index otherwise — so no later version is attempted —
with the resulting error carrying the 0-based failing index and wrapping
the underlying database error. -/
theorem execIdxs_tail1 : execIdxs [Event.rollback] = [] := rfl

theorem execIdxs_tail2 (n : Nat) :
    execIdxs [Event.writeVersion n, Event.rollback] = [] := rfl

theorem execIdxs_tail3 (n : Nat) :
    execIdxs [Event.writeVersion n, Event.commitAttempt,
      Event.rollbackNoop] = [] := rfl

theorem migrate_applies_pending_in_order
    (σ E : Type) (env : Env σ E) (s : Schema) (db : DBState σ)
    (o : MigResult E) (db' : DBState σ) (tr : List Event)
    (hb : env.beginErr = none) (hr : env.readErr = none)
    (h0 : 0 ≤ db.version) (hlt : db.version < (s.Versions.length : Int))
    (h : s.Migrate env db = (o, db', tr)) :
    ∃ k, 1 ≤ k ∧ k ≤ s.Versions.length - db.version.toNat ∧
      execIdxs tr = natsFrom db.version.toNat k ∧
      (∀ j sql, Event.execBody j sql ∈ tr → sql = s.Versions.getD j []) ∧
      (∀ j e, o = MigResult.err (MigErr.applyVersion j e) →
        j = db.version.toNat + k - 1 ∧
        ∃ st0, env.execBody st0 (s.Versions.getD j []) = Except.error e) ∧
      ((∀ j e, o ≠ MigResult.err (MigErr.applyVersion j e)) →
        k = s.Versions.length - db.version.toNat) := by
  rcases Migrate_spec env s db with
    ⟨e, hbe, _⟩ | ⟨_, e, hre, _⟩ | ⟨_, _, hge, _⟩ | ⟨_, _, hneg, _, _⟩ |
    ⟨_, _, _, _, tr0, ⟨j, e, hal, heq⟩ |
      ⟨st', hal, ⟨e, _, heq⟩ | ⟨_, e, _, heq⟩ | ⟨_, _, heq⟩⟩⟩
  · rw [hb] at hbe; exact Option.noConfusion hbe
  · rw [hr] at hre; exact Option.noConfusion hre
  · exfalso; omega
  · exfalso; omega
  · -- a version body failed at index j
    rw [heq] at h
    simp only [Prod.mk.injEq] at h
    obtain ⟨ho, hdb, htr⟩ := h
    subst htr
    subst ho
    obtain ⟨hj1, hj2, htr0eq, st0, hst0⟩ :=
      applyList_err env.execBody (s.Versions.drop db.version.toNat)
        db.version.toNat db.data j e (by rw [hal])
    have htr0 : tr0 = enumFromEv db.version.toNat
        ((s.Versions.drop db.version.toNat).take (j + 1 - db.version.toNat)) := by
      rw [hal] at htr0eq
      exact htr0eq
    rw [List.length_drop] at hj2
    have hjlt : j < s.Versions.length := by omega
    have hvle : db.version.toNat < s.Versions.length := by omega
    refine ⟨j + 1 - db.version.toNat, by omega, by omega, ?_, ?_, ?_, ?_⟩
    · rw [execIdxs_append, execIdxs_cons_read, htr0, execIdxs_enumFromEv,
        execIdxs_tail1, List.append_nil]
      have hlen : ((s.Versions.drop db.version.toNat).take
          (j + 1 - db.version.toNat)).length = j + 1 - db.version.toNat := by
        rw [List.length_take, List.length_drop]
        omega
      rw [hlen]
    · intro j' sql hmem
      simp only [List.mem_append, List.mem_cons, List.mem_singleton,
        List.not_mem_nil, or_false] at hmem
      rcases hmem with (hmem | hmem) | hmem
      · exact Event.noConfusion hmem
      · rw [htr0] at hmem
        refine enum_bodies s.Versions _ db.version.toNat ?_ j' sql hmem
        intro kk hkk
        rw [List.length_take, List.length_drop] at hkk
        rw [getD_take _ _ _ (by omega), getD_drop]
      · simp at hmem
    · intro j' e' ho'
      injection ho' with hee1
      injection hee1 with hj' he'
      subst hj'
      subst he'
      refine ⟨by omega, st0, ?_⟩
      rw [getD_drop] at hst0
      have harith : db.version.toNat + (j - db.version.toNat) = j := by omega
      rw [harith] at hst0
      exact hst0
    · intro hno
      exact absurd rfl (hno j e)
  · -- counter write failed after all bodies applied
    rw [heq] at h
    simp only [Prod.mk.injEq] at h
    obtain ⟨ho, hdb, htr⟩ := h
    subst htr
    subst ho
    have htr0 : tr0 = enumFromEv db.version.toNat
        (s.Versions.drop db.version.toNat) := by
      have h2 := applyList_ok env.execBody (s.Versions.drop db.version.toNat)
        db.version.toNat db.data st' (by rw [hal])
      rw [hal] at h2
      exact h2
    have hvle : db.version.toNat < s.Versions.length := by omega
    refine ⟨s.Versions.length - db.version.toNat, by omega, Nat.le_refl _,
      ?_, ?_, ?_, fun _ => rfl⟩
    · rw [execIdxs_append, execIdxs_cons_read, htr0, execIdxs_enumFromEv,
        List.length_drop, execIdxs_tail2, List.append_nil]
    · intro j' sql hmem
      simp only [List.mem_append, List.mem_cons, List.mem_singleton,
        List.not_mem_nil, or_false] at hmem
      rcases hmem with (hmem | hmem) | hmem
      · exact Event.noConfusion hmem
      · rw [htr0] at hmem
        refine enum_bodies s.Versions _ db.version.toNat ?_ j' sql hmem
        intro kk _
        rw [getD_drop]
      · simp at hmem
    · intro j' e' ho'
      simp at ho'
  · -- commit failed after all bodies applied and the counter written
    rw [heq] at h
    simp only [Prod.mk.injEq] at h
    obtain ⟨ho, hdb, htr⟩ := h
    subst htr
    subst ho
    have htr0 : tr0 = enumFromEv db.version.toNat
        (s.Versions.drop db.version.toNat) := by
      have h2 := applyList_ok env.execBody (s.Versions.drop db.version.toNat)
        db.version.toNat db.data st' (by rw [hal])
      rw [hal] at h2
      exact h2
    have hvle : db.version.toNat < s.Versions.length := by omega
    refine ⟨s.Versions.length - db.version.toNat, by omega, Nat.le_refl _,
      ?_, ?_, ?_, fun _ => rfl⟩
    · rw [execIdxs_append, execIdxs_cons_read, htr0, execIdxs_enumFromEv,
        List.length_drop, execIdxs_tail3, List.append_nil]
    · intro j' sql hmem
      simp only [List.mem_append, List.mem_cons, List.mem_singleton,
        List.not_mem_nil, or_false] at hmem
      rcases hmem with (hmem | hmem) | hmem
      · exact Event.noConfusion hmem
      · rw [htr0] at hmem
        refine enum_bodies s.Versions _ db.version.toNat ?_ j' sql hmem
        intro kk _
        rw [getD_drop]
      · simp at hmem
    · intro j' e' ho'
      simp at ho'
  · -- full success
    rw [heq] at h
    simp only [Prod.mk.injEq] at h
    obtain ⟨ho, hdb, htr⟩ := h
    subst htr
    subst ho
    have htr0 : tr0 = enumFromEv db.version.toNat
        (s.Versions.drop db.version.toNat) := by
      have h2 := applyList_ok env.execBody (s.Versions.drop db.version.toNat)
        db.version.toNat db.data st' (by rw [hal])
      rw [hal] at h2
      exact h2
    have hvle : db.version.toNat < s.Versions.length := by omega
    refine ⟨s.Versions.length - db.version.toNat, by omega, Nat.le_refl _,
      ?_, ?_, ?_, fun _ => rfl⟩
    · rw [execIdxs_append, execIdxs_cons_read, htr0, execIdxs_enumFromEv,
        List.length_drop, execIdxs_tail3, List.append_nil]
    · intro j' sql hmem
      simp only [List.mem_append, List.mem_cons, List.mem_singleton,
        List.not_mem_nil, or_false] at hmem
      rcases hmem with (hmem | hmem) | hmem
      · exact Event.noConfusion hmem
      · rw [htr0] at hmem
        refine enum_bodies s.Versions _ db.version.toNat ?_ j' sql hmem
        intro kk _
        rw [getD_drop]
      · simp at hmem
    · intro j' e' ho'
      simp at ho'

/-- Witness for C5: the concrete two-version migration from counter 0
executes both bodies in order and fully. -/
theorem migrate_applies_pending_in_order_witness :
    ∃ k, 1 ≤ k ∧
      k ≤ (NewSchemaWithMagic ("A\nM\nB".toList) ['M']).Versions.length -
        ((⟨[], 0⟩ : DBState (List (List Char))).version).toNat ∧
      execIdxs [Event.readVersion, Event.execBody 0 ['A'],
          Event.execBody 1 ['B'], Event.writeVersion 2, Event.commitAttempt,
          Event.rollbackNoop] =
        natsFrom ((⟨[], 0⟩ : DBState (List (List Char))).version).toNat k ∧
      (∀ j sql, Event.execBody j sql ∈ [Event.readVersion,
          Event.execBody 0 ['A'], Event.execBody 1 ['B'], Event.writeVersion 2,
          Event.commitAttempt, Event.rollbackNoop] →
        sql = (NewSchemaWithMagic ("A\nM\nB".toList) ['M']).Versions.getD j []) ∧
      (∀ j e, (MigResult.ok : MigResult Unit) =
          MigResult.err (MigErr.applyVersion j e) →
        j = ((⟨[], 0⟩ : DBState (List (List Char))).version).toNat + k - 1 ∧
        ∃ st0, envLog.execBody st0
          ((NewSchemaWithMagic ("A\nM\nB".toList) ['M']).Versions.getD j []) =
            Except.error e) ∧
      ((∀ j e, (MigResult.ok : MigResult Unit) ≠
          MigResult.err (MigErr.applyVersion j e)) →
        k = (NewSchemaWithMagic ("A\nM\nB".toList) ['M']).Versions.length -
          ((⟨[], 0⟩ : DBState (List (List Char))).version).toNat) :=
  migrate_applies_pending_in_order _ _ envLog
    (NewSchemaWithMagic ("A\nM\nB".toList) ['M']) ⟨[], 0⟩
    MigResult.ok ⟨[['A'], ['B']], 2⟩
    [Event.readVersion, Event.execBody 0 ['A'], Event.execBody 1 ['B'],
      Event.writeVersion 2, Event.commitAttempt, Event.rollbackNoop]
    rfl rfl (by decide) (by decide) (by decide)

theorem countReads_cons_read (tr : List Event) :
    countReads (Event.readVersion :: tr) = countReads tr + 1 := by
  simp [countReads, List.filter_cons]

theorem countWrites_cons_read (tr : List Event) :
    countWrites (Event.readVersion :: tr) = countWrites tr := by
  simp [countWrites, List.filter_cons]

theorem countReads_tail1 : countReads [Event.rollback] = 0 := rfl

theorem countReads_tail2 (n : Nat) :
    countReads [Event.writeVersion n, Event.rollback] = 0 := rfl

theorem countReads_tail3 (n : Nat) :
    countReads [Event.writeVersion n, Event.commitAttempt,
      Event.rollbackNoop] = 0 := rfl

theorem countWrites_tail1 : countWrites [Event.rollback] = 0 := rfl

theorem countWrites_tail2 (n : Nat) :
    countWrites [Event.writeVersion n, Event.rollback] = 1 := rfl

theorem countWrites_tail3 (n : Nat) :
    countWrites [Event.writeVersion n, Event.commitAttempt,
      Event.rollbackNoop] = 1 := rfl

/-- C7: on any outcome of a `Migrate` call the version counter after the
call is at least the counter before it — the counter is only ever
advanced, never decreased — and the trace contains at most one read of the
counter and at most one write of it. -/
theorem migrate_counter_monotone_single_rw
    (σ E : Type) (env : Env σ E) (s : Schema) (db : DBState σ)
    (o : MigResult E) (db' : DBState σ) (tr : List Event)
    (h : s.Migrate env db = (o, db', tr)) :
    db.version ≤ db'.version ∧ countReads tr ≤ 1 ∧ countWrites tr ≤ 1 := by
  rcases Migrate_spec env s db with
    ⟨e, hbe, heq⟩ | ⟨_, e, hre, heq⟩ | ⟨_, _, hge, heq⟩ | ⟨_, _, hneg, _, heq⟩ |
    ⟨_, _, h0, hlt, tr0, ⟨j, e, hal, heq⟩ |
      ⟨st', hal, ⟨e, _, heq⟩ | ⟨_, e, _, heq⟩ | ⟨_, _, heq⟩⟩⟩ <;>
    (rw [heq] at h
     simp only [Prod.mk.injEq] at h
     obtain ⟨ho, hdb, htr⟩ := h
     subst htr)
  · rw [← hdb]
    exact ⟨Int.le_refl _, by decide, by decide⟩
  · rw [← hdb]
    exact ⟨Int.le_refl _, by decide, by decide⟩
  · rw [← hdb]
    exact ⟨Int.le_refl _, by decide, by decide⟩
  · rw [← hdb]
    exact ⟨Int.le_refl _, by decide, by decide⟩
  all_goals
    have htr0 : tr0 = enumFromEv db.version.toNat
        (s.Versions.drop db.version.toNat) ∨
        ∃ K, tr0 = enumFromEv db.version.toNat
          ((s.Versions.drop db.version.toNat).take K) := by
      first
      | · left
          have h2 := applyList_ok env.execBody
            (s.Versions.drop db.version.toNat)
            db.version.toNat db.data st' (by rw [hal])
          rw [hal] at h2
          exact h2
      | · right
          obtain ⟨_, _, htr0eq, _⟩ :=
            applyList_err env.execBody (s.Versions.drop db.version.toNat)
              db.version.toNat db.data j e (by rw [hal])
          rw [hal] at htr0eq
          exact ⟨_, htr0eq⟩
  all_goals
    have hcr : countReads tr0 = 0 := by
      rcases htr0 with htr0 | ⟨K, htr0⟩ <;> rw [htr0, countReads_enumFromEv]
  all_goals
    have hcw : countWrites tr0 = 0 := by
      rcases htr0 with htr0 | ⟨K, htr0⟩ <;> rw [htr0, countWrites_enumFromEv]
  · rw [← hdb]
    refine ⟨Int.le_refl _, ?_, ?_⟩
    · rw [countReads_append, countReads_cons_read, hcr, countReads_tail1]
      try omega
    · rw [countWrites_append, countWrites_cons_read, hcw, countWrites_tail1]
      try omega
  · rw [← hdb]
    refine ⟨Int.le_refl _, ?_, ?_⟩
    · rw [countReads_append, countReads_cons_read, hcr, countReads_tail2]
      try omega
    · rw [countWrites_append, countWrites_cons_read, hcw, countWrites_tail2]
      try omega
  · rw [← hdb]
    refine ⟨Int.le_refl _, ?_, ?_⟩
    · rw [countReads_append, countReads_cons_read, hcr, countReads_tail3]
      try omega
    · rw [countWrites_append, countWrites_cons_read, hcw, countWrites_tail3]
      try omega
  · refine ⟨?_, ?_, ?_⟩
    · rw [← hdb]
      exact Int.le_of_lt hlt
    · rw [countReads_append, countReads_cons_read, hcr, countReads_tail3]
      try omega
    · rw [countWrites_append, countWrites_cons_read, hcw, countWrites_tail3]
      try omega

/-- Witness for C7 at a concrete successful two-version migration. -/
theorem migrate_counter_monotone_single_rw_witness :
    (0 : Int) ≤ (⟨[['A'], ['B']], 2⟩ : DBState (List (List Char))).version ∧
    countReads [Event.readVersion, Event.execBody 0 ['A'],
      Event.execBody 1 ['B'], Event.writeVersion 2, Event.commitAttempt,
      Event.rollbackNoop] ≤ 1 ∧
    countWrites [Event.readVersion, Event.execBody 0 ['A'],
      Event.execBody 1 ['B'], Event.writeVersion 2, Event.commitAttempt,
      Event.rollbackNoop] ≤ 1 :=
  migrate_counter_monotone_single_rw _ _ envLog
    (NewSchemaWithMagic ("A\nM\nB".toList) ['M']) ⟨[], 0⟩
    MigResult.ok ⟨[['A'], ['B']], 2⟩
    [Event.readVersion, Event.execBody 0 ['A'], Event.execBody 1 ['B'],
      Event.writeVersion 2, Event.commitAttempt, Event.rollbackNoop]
    (by decide)

/-- C8: once the transaction has been opened (the begin succeeded), every
exit path of `Migrate` — success, the early-return no-op path, and every
error path — releases the transaction: the trace ends with the deferred
rollback acting either effectively (`rollback`) or as the no-op it becomes
after a commit attempt (`rollbackNoop`), so the handle is never left open
and a rollback is attempted unconditionally, including on every
non-success exit; and committing and effectively rolling back are
mutually exclusive: no trace contains both a commit attempt and an
effective rollback. -/
theorem migrate_transaction_released
    (σ E : Type) (env : Env σ E) (s : Schema) (db : DBState σ)
    (o : MigResult E) (db' : DBState σ) (tr : List Event)
    (h : s.Migrate env db = (o, db', tr)) (hb : env.beginErr = none) :
    ((∃ tr', tr = tr' ++ [Event.rollback]) ∨
      (∃ tr', tr = tr' ++ [Event.rollbackNoop])) ∧
    (Event.commitAttempt ∈ tr → Event.rollback ∉ tr) ∧
    (Event.rollback ∈ tr → Event.commitAttempt ∉ tr) ∧
    (o ≠ MigResult.ok → (Event.rollback ∈ tr ∨ Event.rollbackNoop ∈ tr)) := by
  rcases Migrate_spec env s db with
    ⟨e, hbe, heq⟩ | ⟨_, e, hre, heq⟩ | ⟨_, _, hge, heq⟩ | ⟨_, _, hneg, _, heq⟩ |
    ⟨_, _, h0, hlt, tr0, ⟨j, e, hal, heq⟩ |
      ⟨st', hal, ⟨e, _, heq⟩ | ⟨_, e, _, heq⟩ | ⟨_, _, heq⟩⟩⟩
  · rw [hb] at hbe; exact Option.noConfusion hbe
  all_goals
    (rw [heq] at h
     simp only [Prod.mk.injEq] at h
     obtain ⟨ho, hdb, htr⟩ := h
     subst htr
     subst ho)
  -- read failed, no-op, and panic paths: the concrete short trace
  · exact ⟨Or.inl ⟨[Event.readVersion], rfl⟩, by decide, by decide,
      fun _ => Or.inl (by decide)⟩
  · exact ⟨Or.inl ⟨[Event.readVersion], rfl⟩, by decide, by decide,
      fun _ => Or.inl (by decide)⟩
  · exact ⟨Or.inl ⟨[Event.readVersion], rfl⟩, by decide, by decide,
      fun _ => Or.inl (by decide)⟩
  -- paths through the apply loop
  all_goals
    have htr0 : tr0 = enumFromEv db.version.toNat
        (s.Versions.drop db.version.toNat) ∨
        ∃ K, tr0 = enumFromEv db.version.toNat
          ((s.Versions.drop db.version.toNat).take K) := by
      first
      | · left
          have h2 := applyList_ok env.execBody
            (s.Versions.drop db.version.toNat)
            db.version.toNat db.data st' (by rw [hal])
          rw [hal] at h2
          exact h2
      | · right
          obtain ⟨_, _, htr0eq, _⟩ :=
            applyList_err env.execBody (s.Versions.drop db.version.toNat)
              db.version.toNat db.data j e (by rw [hal])
          rw [hal] at htr0eq
          exact ⟨_, htr0eq⟩
  all_goals
    have hnospec : Event.commitAttempt ∉ tr0 ∧ Event.rollback ∉ tr0 ∧
        Event.rollbackNoop ∉ tr0 := by
      rcases htr0 with htr0 | ⟨K, htr0⟩ <;> rw [htr0] <;>
        exact enum_no_special _ _
  · -- a version body failed: effective rollback, no commit attempt
    refine ⟨Or.inl ⟨Event.readVersion :: tr0, rfl⟩, ?_, ?_,
      fun _ => Or.inl (by simp)⟩
    · intro hc
      exfalso
      simp at hc
      exact hnospec.1 hc
    · intro _ hc
      simp at hc
      exact hnospec.1 hc
  · -- the counter write failed: effective rollback, no commit attempt
    refine ⟨Or.inl ⟨Event.readVersion :: tr0 ++
        [Event.writeVersion s.Versions.length], by simp⟩, ?_, ?_,
      fun _ => Or.inl (by simp)⟩
    · intro hc
      exfalso
      simp at hc
      exact hnospec.1 hc
    · intro _ hc
      simp at hc
      exact hnospec.1 hc
  · -- the commit failed: commit attempted, deferred rollback is a no-op
    refine ⟨Or.inr ⟨Event.readVersion :: tr0 ++
        [Event.writeVersion s.Versions.length, Event.commitAttempt], by simp⟩,
      ?_, ?_, fun _ => Or.inr (by simp)⟩
    · intro _ hrb
      simp at hrb
      exact hnospec.2.1 hrb
    · intro hrb
      exfalso
      simp at hrb
      exact hnospec.2.1 hrb
  · -- full success: commit attempted, deferred rollback is a no-op
    refine ⟨Or.inr ⟨Event.readVersion :: tr0 ++
        [Event.writeVersion s.Versions.length, Event.commitAttempt], by simp⟩,
      ?_, ?_, fun hne => absurd rfl hne⟩
    · intro _ hrb
      simp at hrb
      exact hnospec.2.1 hrb
    · intro hrb
      exfalso
      simp at hrb
      exact hnospec.2.1 hrb

/-- Witness for C8 at a concrete successful migration. -/
theorem migrate_transaction_released_witness :
    ((∃ tr', [Event.readVersion, Event.execBody 0 ['A'],
        Event.execBody 1 ['B'], Event.writeVersion 2, Event.commitAttempt,
        Event.rollbackNoop] = tr' ++ [Event.rollback]) ∨
      (∃ tr', [Event.readVersion, Event.execBody 0 ['A'],
        Event.execBody 1 ['B'], Event.writeVersion 2, Event.commitAttempt,
        Event.rollbackNoop] = tr' ++ [Event.rollbackNoop])) ∧
    (Event.commitAttempt ∈ [Event.readVersion, Event.execBody 0 ['A'],
        Event.execBody 1 ['B'], Event.writeVersion 2, Event.commitAttempt,
        Event.rollbackNoop] →
      Event.rollback ∉ [Event.readVersion, Event.execBody 0 ['A'],
        Event.execBody 1 ['B'], Event.writeVersion 2, Event.commitAttempt,
        Event.rollbackNoop]) ∧
    (Event.rollback ∈ [Event.readVersion, Event.execBody 0 ['A'],
        Event.execBody 1 ['B'], Event.writeVersion 2, Event.commitAttempt,
        Event.rollbackNoop] →
      Event.commitAttempt ∉ [Event.readVersion, Event.execBody 0 ['A'],
        Event.execBody 1 ['B'], Event.writeVersion 2, Event.commitAttempt,
        Event.rollbackNoop]) ∧
    ((MigResult.ok : MigResult Unit) ≠ MigResult.ok →
      (Event.rollback ∈ [Event.readVersion, Event.execBody 0 ['A'],
        Event.execBody 1 ['B'], Event.writeVersion 2, Event.commitAttempt,
        Event.rollbackNoop] ∨
      Event.rollbackNoop ∈ [Event.readVersion, Event.execBody 0 ['A'],
        Event.execBody 1 ['B'], Event.writeVersion 2, Event.commitAttempt,
        Event.rollbackNoop])) :=
  migrate_transaction_released _ _ envLog
    (NewSchemaWithMagic ("A\nM\nB".toList) ['M']) ⟨[], 0⟩
    MigResult.ok ⟨[['A'], ['B']], 2⟩
    [Event.readVersion, Event.execBody 0 ['A'], Event.execBody 1 ['B'],
      Event.writeVersion 2, Event.commitAttempt, Event.rollbackNoop]
    (by decide) rfl

end Lazymigrate
